import Mathlib

/-!
Shallow embedding of the core pipeline of `git-reviewers` (`src/reviewers.py`).

Strings are modelled as `List Char` (`Str`), and the Python string
operations used by the source (`str.split`, `str.strip`, `" ".join`,
`str.rpartition`, slicing, the `in` operator) are modelled by executable
functions below that mirror Python's semantics on these inputs.

The two external collaborators (the `git diff`/`git blame` command output)
are passed in as oracle functions producing lists of output lines, exactly
the shape `run_cmd` hands to the parsing code.  Fallible Python operations
(tuple unpacking of a `split` result, indexing, `int()`) are modelled with
`Except String` / `Option`: an `.error` marks the place where the Python
code would raise.
-/

namespace GitReviewers

/-- Strings of the embedded program: lists of characters. -/
abbrev Str := List Char

/-- Coerce a Lean string literal to an embedded string. -/
def str (s : String) : Str := s.data

/-- Python `str.strip()`'s whitespace class restricted to the characters that
can occur here: `Char.isWhitespace` covers space, tab, CR, LF; Python also
strips vertical tab and form feed. -/
def pyIsSpace (c : Char) : Bool :=
  c.isWhitespace || c = Char.ofNat 11 || c = Char.ofNat 12

/-- Python `s.strip()`: drop whitespace from both ends. -/
def pyStrip (s : Str) : Str :=
  ((s.dropWhile pyIsSpace).reverse.dropWhile pyIsSpace).reverse

/-- Python `s.split(sep)` for a one-character separator `c`: split at every
occurrence, keeping empty fields (so the result is never empty). -/
def splitCh (c : Char) : Str → List Str
  | [] => [[]]
  | a :: rest =>
    if a = c then [] :: splitCh c rest
    else
      match splitCh c rest with
      | s :: ss => (a :: s) :: ss
      | [] => [[a]]

/-- Python `s.split(sep, 1)` for a one-character separator, as the pair of
the parts before and after the first occurrence; `none` when `sep` is
absent (where the source's two-variable unpacking would raise). -/
def splitOnce (c : Char) : Str → Option (Str × Str)
  | [] => none
  | a :: rest =>
    if a = c then some ([], rest)
    else (splitOnce c rest).map (fun p => (a :: p.1, p.2))

/-- Does `pre` start `s`? (helper for the multi-character split). -/
def startsWith (pre s : Str) : Bool := decide (s.take pre.length = pre)

/-- Worker for `splitSub`, with fuel for structural recursion; the fuel is
always at least the length of the string, so the `0` branch is unreachable
for nonempty separators. -/
def splitSubAux (sep : Str) : Nat → Str → Str → List Str
  | _, acc, [] => [acc.reverse]
  | 0, acc, s => [acc.reverse ++ s]
  | fuel + 1, acc, c :: rest =>
    if startsWith sep (c :: rest) then
      acc.reverse :: splitSubAux sep fuel [] (List.drop sep.length (c :: rest))
    else
      splitSubAux sep fuel (c :: acc) rest

/-- Python `s.split(sep)` for a multi-character separator (used for `"@@"`):
left-to-right, non-overlapping occurrences. -/
def splitSub (sep s : Str) : List Str :=
  splitSubAux sep (s.length + 1) [] s

/-- Python `sep in s` for a multi-character `sep`. -/
def containsSub (sep s : Str) : Bool := 2 ≤ (splitSub sep s).length

/-- Python `sep.join(parts)` for a one-character separator (the source
uses `" ".join`). -/
def joinWith (c : Char) : List Str → Str
  | [] => []
  | [t] => t
  | t :: u :: rest => t ++ c :: joinWith c (u :: rest)

/-- The date shape of the source's regular expression
`^[0-9]{4}-[0-9]{1,2}-[0-9]{1,2}$` without the trailing-newline allowance:
exactly `digits(4) - digits(1..2) - digits(1..2)`. -/
def isDateCore (s : Str) : Bool :=
  match splitCh '-' s with
  | [a, b, c] =>
    a.length = 4 && a.all Char.isDigit &&
    1 ≤ b.length && b.length ≤ 2 && b.all Char.isDigit &&
    1 ≤ c.length && c.length ≤ 2 && c.all Char.isDigit
  | _ => false

/-- The source's `re.match("^[0-9]{4}\\-[0-9]{1,2}\\-[0-9]{1,2}$", part)`:
`$` also matches just before one trailing newline. -/
def isDate (s : Str) : Bool :=
  isDateCore s || (s.getLastD 'x' = '\n' && isDateCore s.dropLast)

/-- Digits of a decimal numeral, most significant first, as a natural. -/
def digitsVal : Str → Nat → Nat
  | [], acc => acc
  | c :: rest, acc => digitsVal rest (acc * 10 + (c.toNat - '0'.toNat))

/-- Python `int(s)` on the strings that occur here: optional surrounding
whitespace, optional sign, then a nonempty run of digits.  (Python's
underscore digit grouping is not modelled; blame line-number tokens never
contain it.)  `none` marks Python's `ValueError`. -/
def pyInt (s : Str) : Option Int :=
  let t := pyStrip s
  let core : Str → Option Int := fun u =>
    if u ≠ [] && u.all Char.isDigit then some (digitsVal u 0) else none
  match t with
  | '-' :: rest => (core rest).map (fun n => -n)
  | '+' :: rest => core rest
  | _ => core t

/-- One blame attribution: `{line_num, code_line}` as produced by
`get_blame_code_line` (both kept as strings, as in the source). -/
structure CodeLine where
  line_num : Str
  code_line : Str
deriving DecidableEq, Repr

/-- One diff hunk range as stored by `get_code_chunks`: the two fields of
the `start,count` text, kept as strings (the source never converts them;
they are spliced into the blame command line). -/
structure Chunk where
  start_line : Str
  num_lines : Str
deriving DecidableEq, Repr

/-- The `diff_info` dictionary built by `read_diff_raw_line` and mutated by
the later pipeline stages.  Keys that may be absent in the Python dict are
`Option`s; `reviewers` is an insertion-ordered association list, modelling
the Python dict. -/
structure DiffInfo where
  line : Str
  parts : List Str
  raw_info : Str
  reviewers : List (Str × List CodeLine) := []
  chunks : List Chunk := []
  from_mode : Option Str := none
  to_mode : Option Str := none
  from_hash : Option Str := none
  to_hash : Option Str := none
  type_info : Option Str := none
  type : Option Char := none
  file : Option Str := none
  to_file : Option Str := none
deriving DecidableEq, Repr

/-- `read_diff_raw_line(line)`: split the raw diff line on tabs; an empty
metadata field returns the record with no `type`; otherwise the metadata
must be exactly five space-separated fields (`ValueError` otherwise), the
`type` is the first character of the status code (`IndexError` on an empty
one), the second tab field is the path and an optional third the rename
target. -/
def read_diff_raw_line (line : Str) : Except String DiffInfo :=
  let parts := splitCh '\t' line
  let raw_info := parts.headD []
  if raw_info = [] then
    .ok { line := line, parts := parts, raw_info := raw_info }
  else
    match splitCh ' ' raw_info with
    | [fm, tm, fh, th, ti] =>
      match ti with
      | [] => .error "IndexError: type_info[0]"
      | t :: _ =>
        match parts.get? 1 with
        | none => .error "IndexError: parts[1]"
        | some f =>
          .ok { line := line, parts := parts, raw_info := raw_info,
                from_mode := some fm, to_mode := some tm,
                from_hash := some fh, to_hash := some th,
                type_info := some ti, type := some t,
                file := some f, to_file := parts.get? 2 }
    | _ => .error "ValueError: raw_info unpack"

/-- Parsing of one `@@`-bearing line of `git diff` output inside
`get_code_chunks`: `line.split("@@")[1].split(" ")[1][1:]` then a
two-variable unpack of its split on `","`.  The `[1]` indexings and the
unpack are fallible. -/
def parse_chunk_line (line : Str) : Except String Chunk :=
  match (splitSub (str "@@") line).get? 1 with
  | none => .error "IndexError: split @@ [1]"
  | some seg =>
    match (splitCh ' ' seg).get? 1 with
    | none => .error "IndexError: split space [1]"
    | some w =>
      match splitCh ',' (w.drop 1) with
      | [a, b] => .ok { start_line := a, num_lines := b }
      | _ => .error "ValueError: chunk unpack"

/-- `get_code_chunks(diff_info, branch)`: ask the diff oracle (modelling
`get_file_diff`, i.e. `git diff` output for the record's paths), keep the
lines containing `"@@"`, parse each, and replace `chunks`.  Accessing
`diff_info["file"]` on a record without the key raises. -/
def get_code_chunks (fileDiff : Str → Option Str → List Str)
    (d : DiffInfo) : Except String DiffInfo := do
  match d.file with
  | none => .error "KeyError: file"
  | some f =>
    let headers := (fileDiff f d.to_file).filter (containsSub (str "@@"))
    let chunks ← headers.mapM parse_chunk_line
    .ok { d with chunks := chunks }

/-- `get_blame_code_line(line)`: split at the first `)` (`ValueError` when
absent, hence `Option`), take the rightmost space-separated token of the
part before it (`rpartition(" ")[2]`) as `line_num`, and the text after
the `)` with one leading character dropped as `code_line`. -/
def get_blame_code_line (line : Str) : Option CodeLine :=
  (splitOnce ')' line).map (fun p =>
    { line_num := (splitCh ' ' p.1).getLastD [],
      code_line := p.2.drop 1 })

/-- `get_blame_reviewer(line)`: the segment after the first `(` (an
`IndexError`, hence `Option`, when `(` is absent) up to the next `)`,
split on spaces; tokens are taken until the first date-shaped token, each
stripped, rejoined with single spaces and stripped. -/
def get_blame_reviewer (line : Str) : Option Str :=
  match (splitCh '(' line).get? 1 with
  | none => none
  | some afterParen =>
    let seg := (splitCh ')' afterParen).headD []
    let parts := splitCh ' ' seg
    let nameParts := parts.takeWhile (fun p => !(isDate p))
    some (pyStrip (joinWith ' ' (nameParts.map pyStrip)))

/-- `diff_info["reviewers"][reviewer].append(code_line)` preceded by
`if reviewer not in ...: ... = []`: append to the author's list, creating
the key at the end of the (insertion-ordered) dict when new. -/
def appendRev (revs : List (Str × List CodeLine)) (r : Str) (cl : CodeLine) :
    List (Str × List CodeLine) :=
  match revs with
  | [] => [(r, [cl])]
  | (a, ls) :: rest =>
    if a = r then (a, ls ++ [cl]) :: rest else (a, ls) :: appendRev rest r cl

/-- The body of `get_blame_data`'s inner loop for one blame output line:
skip lines lacking `(` or lacking `)`; otherwise parse the code line and
the reviewer (either failing would be an uncaught exception) and append. -/
def processBlameLine (revs : List (Str × List CodeLine)) (line : Str) :
    Except String (List (Str × List CodeLine)) :=
  if line.contains '(' && line.contains ')' then
    match get_blame_code_line line, get_blame_reviewer line with
    | some cl, some rv => .ok (appendRev revs rv cl)
    | _, _ => .error "unreachable blame parse failure"
  else
    .ok revs

/-- `get_blame_data(diff_info, branch)`: for every chunk, ask the blame
oracle (modelling `get_blame`, i.e. `git blame -L start,+count` output run
with the chunk's two strings) and fold every output line through
`processBlameLine`, accumulating into `reviewers`. -/
def get_blame_data (blame : Str → Str → Str → List Str)
    (d : DiffInfo) : Except String DiffInfo := do
  match d.file with
  | none => .error "KeyError: file"
  | some f =>
    let revs ← d.chunks.foldlM
      (fun revs chunk =>
        (blame f chunk.start_line chunk.num_lines).foldlM processBlameLine revs)
      d.reviewers
    .ok { d with reviewers := revs }

/-- `get_file_reviewers(line, branch)`: parse the raw diff line; records
whose `type` is `"A"` or absent are returned untouched (no reviewers on a
new file); all others get chunks and then blame data. -/
def get_file_reviewers (fileDiff : Str → Option Str → List Str)
    (blame : Str → Str → Str → List Str) (line : Str) :
    Except String DiffInfo := do
  let d ← read_diff_raw_line line
  if d.type = some 'A' ∨ d.type = none then
    .ok d
  else do
    let d ← get_code_chunks fileDiff d
    get_blame_data blame d

/-- The record-collection loop of `get_reviewers`: each raw diff line is
processed, and records whose `type` is absent (falsy) are dropped; all
others are appended, in order, to the displayed/aggregated list. -/
def collect_diff_infos (fileDiff : Str → Option Str → List Str)
    (blame : Str → Str → Str → List Str) (raw : List Str) :
    Except String (List DiffInfo) :=
  raw.foldlM
    (fun acc line => do
      let d ← get_file_reviewers fileDiff blame line
      if d.type = none then pure acc else pure (acc ++ [d]))
    []

/-- `total_reviewers[reviewer] += n` preceded by `if reviewer not in ...:
... = 0`: bump the author's count in the insertion-ordered dict. -/
def bump (acc : List (Str × Nat)) (r : Str) (n : Nat) : List (Str × Nat) :=
  match acc with
  | [] => [(r, n)]
  | (a, m) :: rest =>
    if a = r then (a, m + n) :: rest else (a, m) :: bump rest r n

/-- Stable insertion for a descending-by-count sort: the element stops
before the first entry whose count does not exceed its own.  Folded from
the right (so each element is inserted before the later-in-input elements
already present, landing in front of equal counts), this reproduces
Python's stable `sorted(key=count, reverse=True)`. -/
def insertDesc (x : Str × Nat) : List (Str × Nat) → List (Str × Nat)
  | [] => [x]
  | y :: ys => if y.2 ≤ x.2 then x :: y :: ys else y :: insertDesc x ys

/-- Python's `sorted(l, key=lambda k: k[1], reverse=True)`: a stable sort,
descending by count. -/
def sortByCountDesc (l : List (Str × Nat)) : List (Str × Nat) :=
  l.foldr (fun x acc => insertDesc x acc) []

/-- Half-even ("banker's") rounding of the nonnegative rational `a / b`
(`b` positive) to the nearest natural, the rounding mode of Python's
`Decimal` context, in pure natural arithmetic. -/
def rheNat (a b : ℕ) : ℕ :=
  let q := a / b
  let r := a % b
  if 2 * r < b then q
  else if b < 2 * r then q + 1
  else if q % 2 = 0 then q else q + 1

/-- `round(Decimal(count) / total * 100, 2)`, represented losslessly by
its integer number of hundredths (so `66.67` is `6667`): half-even
rounding of `count/total * 10000`.  (The 28-significant-digit
intermediate of the `Decimal` division is not modelled; it agrees with
the exact rational on all inputs arising here.) -/
def round2h (count total : ℕ) : ℕ := rheNat (count * 10000) total

/-- The inner loop of `get_total_reviewers`' accumulation, over one
record's `reviewers` dict: authors equal to the stripped current user are
skipped, every other author's count is bumped by the length of its line
list. -/
def addReviewerCounts (current_user : Str) (acc : List (Str × Nat))
    (revs : List (Str × List CodeLine)) : List (Str × Nat) :=
  revs.foldl
    (fun acc p =>
      if pyStrip current_user = p.1 then acc else bump acc p.1 p.2.length)
    acc

/-- The outer loop of `get_total_reviewers`' accumulation, over all
records. -/
def totalsAux (current_user : Str) (acc : List (Str × Nat))
    (ds : List DiffInfo) : List (Str × Nat) :=
  ds.foldl (fun acc d => addReviewerCounts current_user acc d.reviewers) acc

/-- The per-author line total that `get_total_reviewers`' first loop
accumulates, as a function (used to state the claims): authors equal to
the stripped current user contribute nothing. -/
def includedTotal (current_user : Str) (ds : List DiffInfo) : Nat :=
  (ds.map (fun d =>
    (d.reviewers.map (fun p =>
      if pyStrip current_user = p.1 then 0 else p.2.length)).sum)).sum

/-- `get_total_reviewers(diff_infos)` with the current user (the output of
`get_git_user`, stripped before comparison) passed explicitly: accumulate
per-author line counts over all records skipping the current user, sort
descending by count (stably), and extend each pair with
`round(Decimal(count)/total * 100, 2)`, represented as its number of
hundredths (`round2h`).  When the list is nonempty and the total is zero
the first division raises (`DivisionByZero`); when the list is empty the
loop never runs and the empty list is returned. -/
def get_total_reviewers (current_user : Str) (ds : List DiffInfo) :
    Except String (List (Str × Nat × Nat)) :=
  let totals := totalsAux current_user [] ds
  let sorted := sortByCountDesc totals
  let total_lines := (sorted.map (fun p => p.2)).sum
  match sorted with
  | [] => .ok []
  | _ :: _ =>
    if total_lines = 0 then .error "DivisionByZero"
    else .ok (sorted.map (fun p => (p.1, p.2, round2h p.2 total_lines)))

/-- One element of the contributor-mode output for one record: an
attributed line (rendered `"{num}|\t{code}"`) or the gap marker (rendered
as three `"    ."` lines).  Syntax highlighting and the final `rstrip` of
the code text are presentation, not modelled. -/
inductive Item where
  | ln (line_num code_line : Str) : Item
  | gap : Item
deriving DecidableEq, Repr

/-- The inner loop of `print_contributer_lines` over one record's lines
for the contributor: `int(line["line_num"])` may raise; the gap marker is
emitted when the previous line number is truthy (nonzero) and smaller by
more than one than the current. -/
def gapItems (prev : Option Int) (lines : List CodeLine) :
    Except String (List Item) :=
  match lines with
  | [] => .ok []
  | l :: rest => do
    match pyInt l.line_num with
    | none => .error "ValueError: int(line_num)"
    | some cur => do
      let items ← gapItems (some cur) rest
      let here := Item.ln l.line_num l.code_line
      match prev with
      | some p =>
        if p ≠ 0 ∧ p + 1 < cur then .ok (.gap :: here :: items)
        else .ok (here :: items)
      | none => .ok (here :: items)

/-- Python `dict.get(k)`: lookup in the insertion-ordered dict. -/
def pyLookup (k : Str) : List (Str × List CodeLine) → Option (List CodeLine)
  | [] => none
  | (a, v) :: rest => if a = k then some v else pyLookup k rest

/-- One iteration of `print_contributer_lines`' outer loop: a record whose
lines for the contributor are missing or empty (falsy) is skipped, any
other contributes its gapped line items. -/
def contribStep (contributer : Str) (acc : List (DiffInfo × List Item))
    (d : DiffInfo) : Except String (List (DiffInfo × List Item)) :=
  match pyLookup contributer d.reviewers with
  | none => pure acc
  | some [] => pure acc
  | some (l :: rest) => do
    let items ← gapItems none (l :: rest)
    pure (acc ++ [(d, items)])

/-- The content of `print_contributer_lines(contributer, diff_infos)`:
records whose lines for the contributor are missing or empty (falsy) are
skipped, the rest contribute their gapped line items in record order. -/
def contributer_lines (contributer : Str) (ds : List DiffInfo) :
    Except String (List (DiffInfo × List Item)) :=
  ds.foldlM (contribStep contributer) []

instance {ε : Type u} {α : Type v} [DecidableEq ε] [DecidableEq α] :
    DecidableEq (Except ε α) := fun a b =>
  match a, b with
  | .error e, .error f =>
    if h : e = f then .isTrue (by rw [h])
    else .isFalse (by intro hh; injection hh with h2; exact h h2)
  | .ok x, .ok y =>
    if h : x = y then .isTrue (by rw [h])
    else .isFalse (by intro hh; injection hh with h2; exact h h2)
  | .error _, .ok _ => .isFalse (by intro hh; exact Except.noConfusion hh)
  | .ok _, .error _ => .isFalse (by intro hh; exact Except.noConfusion hh)

/-! ### Concrete fixtures (oracles standing for `git` output, and records) -/

/-- Diff oracle answering with one ordinary hunk header. -/
def fdHunk : Str → Option Str → List Str :=
  fun _ _ => [str "@@ -1,3 +5,2 @@ def foo():"]

/-- Diff oracle answering with a hunk header whose ranges omit the count. -/
def fdHunkNoCount : Str → Option Str → List Str :=
  fun _ _ => [str "@@ -1 +5 @@"]

/-- A modified-file record as `read_diff_raw_line` would build it. -/
def recM : DiffInfo :=
  { line := [], parts := [[]], raw_info := [],
    type := some 'M', file := some (str "file.py") }

/-- Diff oracle used for the unrecognized-status pipeline run. -/
def fdT : Str → Option Str → List Str :=
  fun _ _ => [str "@@ -3,1 +3,1 @@ ctx"]

/-- Blame oracle attributing one line to `zed`. -/
def blT : Str → Str → Str → List Str :=
  fun _ _ _ => [str "abc1234 (zed 2020-1-2 3) x = 1"]

/-- A raw diff line whose status character `T` is none of `A D M R C`. -/
def lineT : Str := str ":100644 100644 abc1234 def5678 T\tfile.py"

/-! ### Preservation lemmas for the pipeline stages -/

theorem get_code_chunks_ok (fd : Str → Option Str → List Str) (d d' : DiffInfo)
    (h : get_code_chunks fd d = .ok d') :
    d'.type = d.type ∧ d'.reviewers = d.reviewers ∧ d'.file = d.file := by
  unfold get_code_chunks at h
  cases hf : d.file with
  | none => rw [hf] at h; exact absurd h (by simp)
  | some f =>
    rw [hf] at h
    simp only [bind, Except.bind] at h
    cases hmm : (((fd f d.to_file).filter
        (containsSub (str "@@"))).mapM parse_chunk_line) with
    | error e => rw [hmm] at h; exact absurd h (by simp)
    | ok cs =>
      rw [hmm] at h
      simp only [Except.ok.injEq] at h
      subst h
      exact ⟨rfl, rfl, rfl⟩

theorem get_blame_data_ok (bl : Str → Str → Str → List Str) (d d' : DiffInfo)
    (h : get_blame_data bl d = .ok d') :
    d'.type = d.type ∧ d'.chunks = d.chunks ∧ d'.file = d.file := by
  unfold get_blame_data at h
  cases hf : d.file with
  | none => rw [hf] at h; exact absurd h (by simp)
  | some f =>
    rw [hf] at h
    simp only [bind, Except.bind] at h
    cases hmm : (d.chunks.foldlM
        (fun revs chunk =>
          (bl f chunk.start_line chunk.num_lines).foldlM processBlameLine revs)
        d.reviewers) with
    | error e => rw [hmm] at h; exact absurd h (by simp)
    | ok revs =>
      rw [hmm] at h
      simp only [Except.ok.injEq] at h
      subst h
      exact ⟨rfl, rfl, rfl⟩

theorem read_diff_raw_line_ok (line : Str) (d : DiffInfo)
    (h : read_diff_raw_line line = .ok d) :
    d.reviewers = [] ∧ d.chunks = [] := by
  simp only [read_diff_raw_line] at h
  split at h
  · simp only [Except.ok.injEq] at h; subst h; exact ⟨rfl, rfl⟩
  · split at h
    · split at h
      · exact absurd h (by simp)
      · split at h
        · exact absurd h (by simp)
        · simp only [Except.ok.injEq] at h; subst h; exact ⟨rfl, rfl⟩
    · exact absurd h (by simp)

/-! ### C1: which side of the hunk header is retained -/

/-- C1, counterexample: parsing the hunk header `@@ -1,3 +5,2 @@` yields the
chunk `{start_line = "1", num_lines = "3"}` — the source side — and not the
target-side `{5, 2}` the claim states: `split(" ")[1]` picks the `-a,b`
field. -/
theorem c1_counterexample :
    (get_code_chunks fdHunk recM).map (fun d => d.chunks) =
      .ok [⟨str "1", str "3"⟩] ∧
    (Chunk.mk (str "1") (str "3")) ≠ ⟨str "5", str "2"⟩ := by
  exact ⟨rfl, by decide⟩

/-- C1, amended: chunk extraction retains the *source-side* range of the
hunk header (the `-a,b` field, the side the base-branch blame needs):
whenever the file diff for a record consists of the header
`@@ -1,3 +5,2 @@ def foo():`, the extracted chunks are
`[{start_line = "1", num_lines = "3"}]`. -/
theorem c1_theorem (fd : Str → Option Str → List Str) (d : DiffInfo) (f : Str)
    (h1 : d.file = some f)
    (h2 : fd f d.to_file = [str "@@ -1,3 +5,2 @@ def foo():"]) :
    get_code_chunks fd d = .ok { d with chunks := [⟨str "1", str "3"⟩] } := by
  simp only [get_code_chunks, h1, h2]
  rfl

/-- C1, witness: the amended theorem applied to the concrete modified-file
record and the concrete diff oracle. -/
theorem c1_witness :
    get_code_chunks fdHunk recM = .ok { recM with chunks := [⟨str "1", str "3"⟩] } :=
  c1_theorem fdHunk recM (str "file.py") rfl rfl

/-! ### C3: hunk header with omitted line count -/

/-- C3, counterexample: on the header `@@ -1 +5 @@` the extracted range
text has no comma, so the two-variable unpack of its `split(",")` raises
(`ValueError`): extraction fails instead of defaulting the count to 1 (in
particular it does not return the claim's `{start 5, count 1}`). -/
theorem c3_counterexample :
    get_code_chunks fdHunkNoCount recM = .error "ValueError: chunk unpack" ∧
    get_code_chunks fdHunkNoCount recM ≠
      .ok { recM with chunks := [⟨str "5", str "1"⟩] } := by
  exact ⟨rfl, by decide⟩

/-- C3, amended: for a hunk header whose ranges omit the line count, chunk
extraction raises (the `start,count` split yields a single field and the
destructuring assignment fails); no default of 1 is applied. -/
theorem c3_theorem (fd : Str → Option Str → List Str) (d : DiffInfo) (f : Str)
    (h1 : d.file = some f)
    (h2 : fd f d.to_file = [str "@@ -1 +5 @@"]) :
    get_code_chunks fd d = .error "ValueError: chunk unpack" := by
  simp only [get_code_chunks, h1, h2]
  rfl

/-- C3, witness: the amended theorem at the concrete record and oracle. -/
theorem c3_witness :
    get_code_chunks fdHunkNoCount recM = .error "ValueError: chunk unpack" :=
  c3_theorem fdHunkNoCount recM (str "file.py") rfl rfl

/-! ### C4: Added records acquire no chunks and no attributions -/

/-- C4: for every diff line and every pair of oracles, if the pipeline
produces a record whose `type` is `'A'`, that record has empty `chunks`
and empty `reviewers`: `get_file_reviewers` returns Added records before
the chunk-extraction and blame stages, and those stages never change the
`type`. -/
theorem c4_theorem (fd : Str → Option Str → List Str)
    (bl : Str → Str → Str → List Str) (line : Str) (d : DiffInfo)
    (h : get_file_reviewers fd bl line = .ok d) (hA : d.type = some 'A') :
    d.chunks = [] ∧ d.reviewers = [] := by
  unfold get_file_reviewers at h
  cases hr : read_diff_raw_line line with
  | error e => rw [hr] at h; exact absurd h (by simp [bind, Except.bind])
  | ok d0 =>
    rw [hr] at h
    simp only [bind, Except.bind] at h
    by_cases hty : d0.type = some 'A' ∨ d0.type = none
    · rw [if_pos hty] at h
      simp only [Except.ok.injEq] at h
      subst h
      have := read_diff_raw_line_ok line d0 hr
      exact ⟨this.2, this.1⟩
    · rw [if_neg hty] at h
      cases hc : get_code_chunks fd d0 with
      | error e => rw [hc] at h; exact absurd h (by simp)
      | ok d1 =>
        rw [hc] at h
        have h1 := get_code_chunks_ok fd d0 d1 hc
        have h2 := get_blame_data_ok bl d1 d h
        rw [h2.1, h1.1] at hA
        exact absurd (Or.inl hA) hty

/-- The record that `read_diff_raw_line` builds for a concrete added-file
diff line. -/
def recA : DiffInfo :=
  { line := str ":000000 100644 0000000 1234567 A\tnew.py",
    parts := [str ":000000 100644 0000000 1234567 A", str "new.py"],
    raw_info := str ":000000 100644 0000000 1234567 A",
    from_mode := some (str ":000000"), to_mode := some (str "100644"),
    from_hash := some (str "0000000"), to_hash := some (str "1234567"),
    type_info := some (str "A"), type := some 'A',
    file := some (str "new.py"), to_file := none }

/-- C4, witness: a concrete added-file diff line run through the pipeline
with the concrete oracles. -/
theorem c4_witness : recA.chunks = [] ∧ recA.reviewers = [] :=
  c4_theorem fdT blT (str ":000000 100644 0000000 1234567 A\tnew.py") recA rfl rfl

/-! ### C5: ranking for {alice: 10, bob: 5, currentUser: 100} -/

/-- The record realizing attributions `{alice: 10, bob: 5, currentUser:
100}`. -/
def recC5 : DiffInfo :=
  { line := [], parts := [[]], raw_info := [],
    reviewers := [(str "alice", List.replicate 10 ⟨str "1", str "c"⟩),
                  (str "bob", List.replicate 5 ⟨str "1", str "c"⟩),
                  (str "currentUser", List.replicate 100 ⟨str "1", str "c"⟩)] }

/-- C5: with attributions `{alice: 10, bob: 5, currentUser: 100}` and
current user `"currentUser"`, the ranking is exactly
`[alice(10, 66.67%), bob(5, 33.33%)]` (percentages in hundredths:
`66.67 = 6667`, `33.33 = 3333`): the current user is excluded by string
match before ranking, the rest are sorted descending by count, and each
percentage is `round(count/total*100, 2)` (half-even). -/
theorem c5_theorem :
    get_total_reviewers (str "currentUser") [recC5] =
      .ok [(str "alice", 10, 6667), (str "bob", 5, 3333)] := by
  decide

/-! ### C2: unrecognized status characters and aggregation -/

/-- C2, counterexample: a record whose status character is `T` (not one of
the recognized `A D M R C`) *does* go through chunk extraction and blame
correlation, and its attributed line is counted in the ranking: the claim
that such records contribute no attributed lines to the aggregation is
false. -/
theorem c2_counterexample :
    ((get_file_reviewers fdT blT lineT).bind
      (fun d => get_total_reviewers (str "me") [d])) =
        .ok [(str "zed", 1, 10000)] ∧
    (get_file_reviewers fdT blT lineT).map (fun d => d.reviewers.length) =
      .ok 1 := by
  exact ⟨rfl, rfl⟩

/-- C2, amended: a record with a present status character other than `'A'`
— recognized or not — undergoes chunk extraction and blame correlation
(so its attributions enter the aggregation like any other record's), and
any record the pipeline returns with a present `type` is retained in the
displayed record list. -/
theorem c2_theorem (fd : Str → Option Str → List Str)
    (bl : Str → Str → Str → List Str) (line : Str) (d : DiffInfo) (c : Char)
    (h1 : read_diff_raw_line line = .ok d) (h2 : d.type = some c)
    (h3 : c ≠ 'A') :
    get_file_reviewers fd bl line =
      Except.bind (get_code_chunks fd d) (get_blame_data bl) ∧
    (∀ d', get_file_reviewers fd bl line = .ok d' →
      collect_diff_infos fd bl [line] = .ok [d']) := by
  have hty : ¬(d.type = some 'A' ∨ d.type = none) := by
    rw [h2]
    push_neg
    exact ⟨by simp [h3], by simp⟩
  have hmain : get_file_reviewers fd bl line =
      Except.bind (get_code_chunks fd d) (get_blame_data bl) := by
    unfold get_file_reviewers
    rw [h1]
    simp only [bind, Except.bind]
    rw [if_neg hty]
  refine ⟨hmain, ?_⟩
  intro d' hd'
  have htyd' : d'.type = some c := by
    rw [hmain] at hd'
    cases hc : get_code_chunks fd d with
    | error e => rw [hc] at hd'; exact absurd hd' (by simp [Except.bind])
    | ok d1 =>
      rw [hc] at hd'
      simp only [Except.bind] at hd'
      have e1 := get_code_chunks_ok fd d d1 hc
      have e2 := get_blame_data_ok bl d1 d' hd'
      rw [e2.1, e1.1, h2]
  unfold collect_diff_infos
  simp only [List.foldlM, bind, Except.bind]
  rw [hd']
  simp [htyd', pure, Except.pure]

/-- C2, witness: the amended theorem at the concrete `T`-status line, with
the resulting record shown to be processed and retained. -/
theorem c2_witness :
    get_file_reviewers fdT blT lineT =
      Except.bind (get_code_chunks fdT
        { line := lineT,
          parts := [str ":100644 100644 abc1234 def5678 T", str "file.py"],
          raw_info := str ":100644 100644 abc1234 def5678 T",
          from_mode := some (str ":100644"), to_mode := some (str "100644"),
          from_hash := some (str "abc1234"), to_hash := some (str "def5678"),
          type_info := some (str "T"), type := some 'T',
          file := some (str "file.py"), to_file := none })
        (get_blame_data blT) := by
  exact (c2_theorem fdT blT lineT _ 'T' rfl rfl (by decide)).1

/-! ### Aggregation lemmas for C7 and C8 -/

theorem bump_sum (acc : List (Str × Nat)) (r : Str) (n : Nat) :
    ((bump acc r n).map (fun p => p.2)).sum =
      (acc.map (fun p => p.2)).sum + n := by
  induction acc with
  | nil => simp [bump]
  | cons a rest ih =>
    by_cases h : a.1 = r
    · simp only [bump, if_pos h, List.map_cons, List.sum_cons]
      omega
    · simp only [bump, if_neg h, List.map_cons, List.sum_cons, ih]
      omega

theorem bump_pos (acc : List (Str × Nat)) (r : Str) (n : Nat)
    (hacc : ∀ p ∈ acc, 1 ≤ p.2) (hn : 1 ≤ n) :
    ∀ p ∈ bump acc r n, 1 ≤ p.2 := by
  induction acc with
  | nil =>
    intro p hp
    simp only [bump, List.mem_singleton] at hp
    subst hp
    exact hn
  | cons a rest ih =>
    intro p hp
    by_cases h : a.1 = r
    · simp only [bump, if_pos h, List.mem_cons] at hp
      rcases hp with hp | hp
      · subst hp; have := hacc a (by simp); simp; omega
      · exact hacc p (List.mem_cons_of_mem a hp)
    · simp only [bump, if_neg h, List.mem_cons] at hp
      rcases hp with hp | hp
      · subst hp; exact hacc a (by simp)
      · exact ih (fun q hq => hacc q (List.mem_cons_of_mem a hq)) p hp

theorem addReviewerCounts_sum (u : Str) (revs : List (Str × List CodeLine)) :
    ∀ acc, (((addReviewerCounts u acc revs)).map (fun p => p.2)).sum =
      (acc.map (fun p => p.2)).sum +
        (revs.map (fun p => if pyStrip u = p.1 then 0 else p.2.length)).sum := by
  induction revs with
  | nil => intro acc; simp [addReviewerCounts]
  | cons a rest ih =>
    intro acc
    by_cases h : pyStrip u = a.1
    · simp only [addReviewerCounts, List.foldl_cons, if_pos h] at *
      rw [ih acc]
      simp [h]
    · simp only [addReviewerCounts, List.foldl_cons, if_neg h] at *
      rw [ih (bump acc a.1 a.2.length), bump_sum]
      simp [h]
      omega

theorem addReviewerCounts_pos (u : Str) (revs : List (Str × List CodeLine))
    (hrevs : ∀ p ∈ revs, p.2 ≠ []) :
    ∀ acc, (∀ p ∈ acc, 1 ≤ p.2) →
      ∀ p ∈ addReviewerCounts u acc revs, 1 ≤ p.2 := by
  induction revs with
  | nil => intro acc hacc; simpa [addReviewerCounts] using hacc
  | cons a rest ih =>
    intro acc hacc
    have hrest : ∀ p ∈ rest, p.2 ≠ [] :=
      fun p hp => hrevs p (List.mem_cons_of_mem a hp)
    by_cases h : pyStrip u = a.1
    · simpa only [addReviewerCounts, List.foldl_cons, if_pos h] using
        ih hrest acc hacc
    · have ha : 1 ≤ a.2.length := by
        have := hrevs a (by simp)
        cases hc : a.2 with
        | nil => exact absurd hc this
        | cons x xs => simp
      simpa only [addReviewerCounts, List.foldl_cons, if_neg h] using
        ih hrest (bump acc a.1 a.2.length) (bump_pos acc a.1 a.2.length hacc ha)

theorem totalsAux_sum (u : Str) (ds : List DiffInfo) :
    ∀ acc, ((totalsAux u acc ds).map (fun p => p.2)).sum =
      (acc.map (fun p => p.2)).sum + includedTotal u ds := by
  induction ds with
  | nil => intro acc; simp [totalsAux, includedTotal]
  | cons d rest ih =>
    intro acc
    simp only [totalsAux, List.foldl_cons] at *
    rw [ih (addReviewerCounts u acc d.reviewers), addReviewerCounts_sum]
    simp only [includedTotal, List.map_cons, List.sum_cons]
    omega

theorem totalsAux_pos (u : Str) (ds : List DiffInfo)
    (hne : ∀ d ∈ ds, ∀ p ∈ d.reviewers, p.2 ≠ []) :
    ∀ acc, (∀ p ∈ acc, 1 ≤ p.2) → ∀ p ∈ totalsAux u acc ds, 1 ≤ p.2 := by
  induction ds with
  | nil => intro acc hacc; simpa [totalsAux] using hacc
  | cons d rest ih =>
    intro acc hacc
    have hrest : ∀ d' ∈ rest, ∀ p ∈ d'.reviewers, p.2 ≠ [] :=
      fun d' hd' => hne d' (List.mem_cons_of_mem d hd')
    simpa only [totalsAux, List.foldl_cons] using
      ih hrest (addReviewerCounts u acc d.reviewers)
        (addReviewerCounts_pos u d.reviewers (hne d (by simp)) acc hacc)

theorem insertDesc_perm (x : Str × Nat) (l : List (Str × Nat)) :
    (insertDesc x l).Perm (x :: l) := by
  induction l with
  | nil => simp [insertDesc]
  | cons y ys ih =>
    by_cases h : y.2 ≤ x.2
    · simp [insertDesc, if_pos h]
    · simp only [insertDesc, if_neg h]
      exact (List.Perm.cons y ih).trans (List.Perm.swap x y ys)

theorem sortByCountDesc_perm (l : List (Str × Nat)) :
    (sortByCountDesc l).Perm l := by
  induction l with
  | nil => simp [sortByCountDesc]
  | cons x xs ih =>
    simp only [sortByCountDesc, List.foldr_cons]
    exact (insertDesc_perm x _).trans (List.Perm.cons x ih)

/-! ### C7: zero total yields an empty ranking without failure -/

/-- C7: for records produced by the pipeline (whose attribution lists are
never empty — `get_blame_data` creates an author key only together with
its first line), if the total attributed line count across all included
authors is zero, `get_total_reviewers` returns the empty ranking and does
not reach the division: the accumulated dict is empty, so the
percentage loop never runs. -/
theorem c7_theorem (u : Str) (ds : List DiffInfo)
    (hne : ∀ d ∈ ds, ∀ p ∈ d.reviewers, p.2 ≠ [])
    (h0 : includedTotal u ds = 0) :
    get_total_reviewers u ds = .ok [] := by
  have hsum : ((totalsAux u [] ds).map (fun p => p.2)).sum = 0 := by
    rw [totalsAux_sum]
    simpa using h0
  have hpos : ∀ p ∈ totalsAux u [] ds, 1 ≤ p.2 :=
    totalsAux_pos u ds hne [] (by intro p hp; exact absurd hp (by simp))
  have hnil : totalsAux u [] ds = [] := by
    cases h : totalsAux u [] ds with
    | nil => rfl
    | cons a rest =>
      exfalso
      have h1 : 1 ≤ a.2 := hpos a (by rw [h]; simp)
      rw [h] at hsum
      simp only [List.map_cons, List.sum_cons] at hsum
      omega
  simp only [get_total_reviewers, hnil]
  rfl

/-- A record with all attributions belonging to the current user. -/
def recOnlyUser : DiffInfo :=
  { line := [], parts := [[]], raw_info := [],
    reviewers := [(str "me", [⟨str "1", str "c"⟩, ⟨str "2", str "d"⟩])] }

/-- C7, witness: a record whose only attributed author is the current
user: the included total is zero and the ranking is empty. -/
theorem c7_witness :
    get_total_reviewers (str "me") [recOnlyUser] = .ok [] :=
  c7_theorem (str "me") [recOnlyUser] (by decide) (by decide)

/-! ### C8: percentages sum to 100 up to rounding; counts are positive -/

theorem rheNat_bound (a b : ℕ) (hb : b ≠ 0) :
    |((rheNat a b : ℚ)) - (a : ℚ) / (b : ℚ)| ≤ 1/2 := by
  have hbQ : (0 : ℚ) < (b : ℚ) := by
    exact_mod_cast Nat.pos_of_ne_zero hb
  have hmod : b * (a / b) + a % b = a := Nat.div_add_mod a b
  have haQ : (a : ℚ) = (b : ℚ) * ((a / b : ℕ) : ℚ) + ((a % b : ℕ) : ℚ) := by
    exact_mod_cast hmod.symm
  have hdiv : (a : ℚ) / (b : ℚ) =
      ((a / b : ℕ) : ℚ) + ((a % b : ℕ) : ℚ) / (b : ℚ) := by
    rw [haQ]
    field_simp
    ring
  have hrb : ((a % b : ℕ) : ℚ) < (b : ℚ) := by
    exact_mod_cast Nat.mod_lt a (Nat.pos_of_ne_zero hb)
  have hr0 : (0 : ℚ) ≤ ((a % b : ℕ) : ℚ) := by positivity
  unfold rheNat
  by_cases h1 : 2 * (a % b) < b
  · rw [if_pos h1, hdiv]
    have : 2 * ((a % b : ℕ) : ℚ) < (b : ℚ) := by exact_mod_cast h1
    have hlt : ((a % b : ℕ) : ℚ) / (b : ℚ) < 1/2 := by
      rw [div_lt_iff₀ hbQ]
      linarith
    have hge : (0 : ℚ) ≤ ((a % b : ℕ) : ℚ) / (b : ℚ) := by positivity
    rw [abs_le]
    constructor <;> [linarith; linarith]
  · rw [if_neg h1]
    have h1Q : (b : ℚ) ≤ 2 * ((a % b : ℕ) : ℚ) := by
      have : b ≤ 2 * (a % b) := Nat.le_of_not_lt h1
      exact_mod_cast this
    have hge : (1 : ℚ)/2 ≤ ((a % b : ℕ) : ℚ) / (b : ℚ) := by
      rw [le_div_iff₀ hbQ]
      linarith
    have hlt1 : ((a % b : ℕ) : ℚ) / (b : ℚ) < 1 := by
      rw [div_lt_one hbQ]
      exact hrb
    by_cases h2 : b < 2 * (a % b)
    · rw [if_pos h2, hdiv]
      push_cast
      rw [abs_le]
      constructor <;> [linarith; linarith]
    · rw [if_neg h2]
      have heq : ((a % b : ℕ) : ℚ) / (b : ℚ) = 1/2 := by
        have hb2 : b = 2 * (a % b) := by omega
        have hr_ne : ((a % b : ℕ) : ℚ) ≠ 0 := by
          have : a % b ≠ 0 := by omega
          exact_mod_cast this
        have hbeq : (b : ℚ) = 2 * ((a % b : ℕ) : ℚ) := by exact_mod_cast hb2
        rw [hbeq]
        field_simp
        ring
      by_cases h3 : a / b % 2 = 0
      · rw [if_pos h3, hdiv, heq]
        rw [abs_le]
        constructor <;> [linarith; linarith]
      · rw [if_neg h3, hdiv, heq]
        push_cast
        rw [abs_le]
        constructor <;> [linarith; linarith]

theorem abs_sum_sub_sum {α : Type} (l : List α) (f g : α → ℚ) (ε : ℚ)
    (h : ∀ x ∈ l, |f x - g x| ≤ ε) :
    |(l.map f).sum - (l.map g).sum| ≤ (l.length : ℚ) * ε := by
  induction l with
  | nil => simp
  | cons a rest ih =>
    have ha := h a (by simp)
    have hrest := ih (fun x hx => h x (List.mem_cons_of_mem a hx))
    simp only [List.map_cons, List.sum_cons, List.length_cons]
    have tri : |(f a + (rest.map f).sum) - (g a + (rest.map g).sum)| ≤
        |f a - g a| + |(rest.map f).sum - (rest.map g).sum| := by
      have : (f a + (rest.map f).sum) - (g a + (rest.map g).sum) =
          (f a - g a) + ((rest.map f).sum - (rest.map g).sum) := by ring
      rw [this]
      exact abs_add _ _
    push_cast
    linarith

/-- C8: for every nonempty ranking produced by `get_total_reviewers` from
pipeline records (attribution lists nonempty), every entry's line count is
at least 1, and the percentages (hundredths divided by 100) sum to 100 up
to the accumulated per-entry half-even rounding error of half a hundredth
each. -/
theorem c8_theorem (u : Str) (ds : List DiffInfo)
    (out : List (Str × Nat × Nat))
    (hne : ∀ d ∈ ds, ∀ p ∈ d.reviewers, p.2 ≠ [])
    (hok : get_total_reviewers u ds = .ok out) (hout : out ≠ []) :
    (∀ e ∈ out, 1 ≤ e.2.1) ∧
    |((out.map (fun e => (e.2.2 : ℚ))).sum) / 100 - 100| ≤
      (out.length : ℚ) / 200 := by
  have hpos : ∀ p ∈ totalsAux u [] ds, 1 ≤ p.2 :=
    totalsAux_pos u ds hne [] (by intro p hp; exact absurd hp (by simp))
  have hposS : ∀ p ∈ sortByCountDesc (totalsAux u [] ds), 1 ≤ p.2 :=
    fun p hp => hpos p ((sortByCountDesc_perm (totalsAux u [] ds)).mem_iff.mp hp)
  simp only [get_total_reviewers] at hok
  cases hs : sortByCountDesc (totalsAux u [] ds) with
  | nil =>
    rw [hs] at hok
    simp only [Except.ok.injEq] at hok
    exact absurd hok.symm hout
  | cons a rest =>
    rw [hs] at hok
    by_cases hT : (((a :: rest).map (fun p => p.2)).sum) = 0
    · rw [if_pos hT] at hok
      exact absurd hok (by simp)
    · rw [if_neg hT] at hok
      simp only [Except.ok.injEq] at hok
      subst hok
      set T : ℕ := ((a :: rest).map (fun p => p.2)).sum with hTdef
      constructor
      · intro e he
        simp only [List.mem_map] at he
        obtain ⟨p, hp, rfl⟩ := he
        exact hposS p (by rw [hs]; exact hp)
      · -- exact hundredth values sum to 10000
        have hTQ : ((T : ℕ) : ℚ) ≠ 0 := Nat.cast_ne_zero.mpr hT
        have hexact : (((a :: rest)).map
            (fun p => ((p.2 : ℚ) * 10000) / (T : ℚ))).sum = 10000 := by
          have e1 : (((a :: rest)).map
              (fun p => ((p.2 : ℚ) * 10000) / (T : ℚ))) =
              (((a :: rest)).map
                (fun p => (p.2 : ℚ) * (10000 / (T : ℚ)))) := by
            apply List.map_congr_left
            intro p _
            rw [mul_div_assoc]
          rw [e1, List.sum_map_mul_right]
          have e2 : (((a :: rest)).map (fun p => ((p.2 : ℚ)))).sum = (T : ℚ) := by
            rw [hTdef]
            push_cast
            rw [List.map_map]
            rfl
          rw [e2]
          field_simp
        have hclose : ∀ p ∈ (a :: rest),
            |((round2h p.2 T : ℚ)) - ((p.2 : ℚ) * 10000) / (T : ℚ)| ≤ 1/2 := by
          intro p _
          have := rheNat_bound (p.2 * 10000) T hT
          simpa [round2h] using this
        have hsumBound :
            |(((a :: rest)).map (fun p => (round2h p.2 T : ℚ))).sum -
              (((a :: rest)).map
                (fun p => ((p.2 : ℚ) * 10000) / (T : ℚ))).sum| ≤
              (((a :: rest)).length : ℚ) * (1/2) :=
          abs_sum_sub_sum (a :: rest) _ _ (1/2) hclose
        rw [hexact] at hsumBound
        have hmapmap : ((((a :: rest)).map
            (fun p => ((p.1, p.2, round2h p.2 T) : Str × Nat × Nat))).map
              (fun e => (e.2.2 : ℚ))).sum =
            (((a :: rest)).map (fun p => (round2h p.2 T : ℚ))).sum := by
          rw [List.map_map]
          rfl
        rw [hmapmap]
        have hlen : ((((a :: rest)).map
            (fun p => ((p.1, p.2, round2h p.2 T) : Str × Nat × Nat))).length : ℚ) =
            (((a :: rest)).length : ℚ) := by
          rw [List.length_map]
        rw [hlen]
        set S : ℚ := (((a :: rest)).map (fun p => (round2h p.2 T : ℚ))).sum
        set n : ℚ := (((a :: rest)).length : ℚ)
        have habs : |S - 10000| ≤ n * (1/2) := hsumBound
        rw [abs_le] at habs ⊢
        constructor
        · have : S / 100 - 100 = (S - 10000) / 100 := by ring
          rw [this]
          have := habs.1
          linarith
        · have : S / 100 - 100 = (S - 10000) / 100 := by ring
          rw [this]
          have := habs.2
          linarith

/-- C8, witness: the `{alice: 10, bob: 5, currentUser: 100}` ranking has
entries with positive counts and percentages summing to exactly 100. -/
theorem c8_witness :
    (∀ e ∈ [(str "alice", 10, 6667), (str "bob", 5, 3333)], 1 ≤ e.2.1) ∧
    |(([(str "alice", 10, 6667), (str "bob", 5, 3333)].map
        (fun e => (e.2.2 : ℚ))).sum) / 100 - 100| ≤
      (([(str "alice", (10 : ℕ), (6667 : ℕ)),
         (str "bob", 5, 3333)].length : ℚ)) / 200 :=
  c8_theorem (str "currentUser") [recC5]
    [(str "alice", 10, 6667), (str "bob", 5, 3333)]
    (by decide) (by decide) (by decide)

/-! ### C9: contributor-mode line listing -/

/-- The attributed-line items of a contributor-mode output, with the gap
markers removed. -/
def nonGapItems (items : List Item) : List Item :=
  items.filter (fun i => match i with | .gap => false | .ln _ _ => true)

theorem gapItems_nonGap (lines : List CodeLine) :
    ∀ (prev : Option Int) (items : List Item),
      gapItems prev lines = .ok items →
      nonGapItems items = lines.map (fun l => Item.ln l.line_num l.code_line) := by
  induction lines with
  | nil =>
    intro prev items h
    simp only [gapItems, Except.ok.injEq] at h
    subst h
    rfl
  | cons l rest ih =>
    intro prev items h
    cases hp : pyInt l.line_num with
    | none =>
      simp only [gapItems, hp] at h
      exact Except.noConfusion h
    | some cur =>
      cases hg : gapItems (some cur) rest with
      | error e =>
        simp only [gapItems, hp, hg, bind, Except.bind] at h
        exact Except.noConfusion h
      | ok its =>
        have hits := ih (some cur) its hg
        cases prev with
        | none =>
          simp only [gapItems, hp, hg, bind, Except.bind,
            Except.ok.injEq] at h
          subst h
          simp only [nonGapItems, List.filter, List.map_cons] at *
          rw [← hits]
        | some p =>
          by_cases hcond : p ≠ 0 ∧ p + 1 < cur
          · simp only [gapItems, hp, hg, bind, Except.bind, if_pos hcond,
              Except.ok.injEq] at h
            subst h
            simp only [nonGapItems, List.filter, List.map_cons] at *
            rw [← hits]
          · simp only [gapItems, hp, hg, bind, Except.bind, if_neg hcond,
              Except.ok.injEq] at h
            subst h
            simp only [nonGapItems, List.filter, List.map_cons] at *
            rw [← hits]

theorem contributer_lines_skip (name : Str) (ds : List DiffInfo)
    (h : ∀ d ∈ ds, pyLookup name d.reviewers = none ∨
      pyLookup name d.reviewers = some []) :
    ∀ acc, ds.foldlM (contribStep name) acc = .ok acc := by
  induction ds with
  | nil => intro acc; rfl
  | cons d rest ih =>
    intro acc
    have hstep : contribStep name acc d = .ok acc := by
      rcases h d (by simp) with hd | hd <;>
        simp [contribStep, hd, pure, Except.pure]
    rw [List.foldlM_cons, hstep]
    exact ih (fun d' hd' => h d' (List.mem_cons_of_mem d hd')) acc

theorem contributer_lines_mem (name : Str) (ds : List DiffInfo) :
    ∀ acc out, ds.foldlM (contribStep name) acc = .ok out →
      (∀ p ∈ acc, ∃ ls, pyLookup name p.1.reviewers = some ls ∧ ls ≠ [] ∧
        nonGapItems p.2 = ls.map (fun l => Item.ln l.line_num l.code_line)) →
      ∀ p ∈ out, ∃ ls, pyLookup name p.1.reviewers = some ls ∧ ls ≠ [] ∧
        nonGapItems p.2 = ls.map (fun l => Item.ln l.line_num l.code_line) := by
  induction ds with
  | nil =>
    intro acc out h hacc
    simp only [List.foldlM_nil] at h
    cases h
    exact hacc
  | cons d rest ih =>
    intro acc out h hacc
    rw [List.foldlM_cons] at h
    cases hstep : contribStep name acc d with
    | error e => rw [hstep] at h; exact absurd h (by simp [bind, Except.bind])
    | ok acc2 =>
      rw [hstep] at h
      refine ih acc2 out h ?_
      cases hl : pyLookup name d.reviewers with
      | none =>
        simp only [contribStep, hl, pure, Except.pure, Except.ok.injEq] at hstep
        subst hstep
        exact hacc
      | some ls =>
        cases ls with
        | nil =>
          simp only [contribStep, hl, pure, Except.pure,
            Except.ok.injEq] at hstep
          subst hstep
          exact hacc
        | cons l rest2 =>
          cases hg : gapItems none (l :: rest2) with
          | error e =>
            simp only [contribStep, hl, hg, bind, Except.bind] at hstep
            exact Except.noConfusion hstep
          | ok items =>
            simp only [contribStep, hl, hg, bind, Except.bind, pure,
              Except.pure, Except.ok.injEq] at hstep
            subst hstep
            intro p hp
            rcases List.mem_append.mp hp with hp | hp
            · exact hacc p hp
            · simp only [List.mem_singleton] at hp
              subst hp
              exact ⟨l :: rest2, hl, by simp,
                gapItems_nonGap (l :: rest2) none items hg⟩

/-- The record whose `alice` lines are 10, 11, 15, 16 (stored order). -/
def rec9 : DiffInfo :=
  { line := [], parts := [[]], raw_info := [],
    reviewers := [(str "alice",
      [⟨str "10", str "a"⟩, ⟨str "11", str "b"⟩,
       ⟨str "15", str "c"⟩, ⟨str "16", str "d"⟩])] }

/-- A record with no lines for `alice`. -/
def rec9b : DiffInfo :=
  { line := str "b", parts := [[]], raw_info := [],
    reviewers := [(str "bob", [⟨str "1", str "x"⟩])] }

/-- A record whose `alice` line list is empty (falsy). -/
def rec9e : DiffInfo :=
  { line := str "e", parts := [[]], raw_info := [],
    reviewers := [(str "alice", [])] }

/-- A record whose `bob` lines are stored in descending order 15, 10. -/
def rec9c : DiffInfo :=
  { line := [], parts := [[]], raw_info := [],
    reviewers := [(str "bob", [⟨str "15", str "cA"⟩, ⟨str "10", str "cB"⟩])] }

/-- C9, counterexample: a record whose stored lines for `bob` are
`[15, 10]` is output as `[15, 10]` — the code does not sort into
ascending line-number order, and no gap marker is emitted (the claim's
ascending gapped listing would be `[10, GAP, 15]`). -/
theorem c9_counterexample :
    contributer_lines (str "bob") [rec9c] =
      .ok [(rec9c, [Item.ln (str "15") (str "cA"),
                    Item.ln (str "10") (str "cB")])] ∧
    [Item.ln (str "15") (str "cA"), Item.ln (str "10") (str "cB")] ≠
      [Item.ln (str "10") (str "cB"), Item.gap,
       Item.ln (str "15") (str "cA")] := by
  exact ⟨rfl, by decide⟩

/-- C9, amended: contributor mode lists each contributing record's lines
in their *stored* (blame-output) order — not sorted — inserting the gap
marker exactly where the previous line number is nonzero and smaller by
more than one than the next (so the ascending stored numbers
`[10, 11, 15, 16]` produce `[10, 11, GAP, 15, 16]`); records whose line
list for the contributor is missing or empty are omitted entirely, and
every output entry consists of a record with a nonempty line list whose
non-gap items are exactly its stored lines in order. -/
theorem c9_theorem :
    (contributer_lines (str "alice") [rec9, rec9b, rec9e] =
      .ok [(rec9, [Item.ln (str "10") (str "a"), Item.ln (str "11") (str "b"),
                   Item.gap, Item.ln (str "15") (str "c"),
                   Item.ln (str "16") (str "d")])]) ∧
    (∀ name ds, (∀ d ∈ ds, pyLookup name d.reviewers = none ∨
        pyLookup name d.reviewers = some []) →
      contributer_lines name ds = .ok []) ∧
    (∀ name ds out, contributer_lines name ds = .ok out →
      ∀ p ∈ out, ∃ ls, pyLookup name p.1.reviewers = some ls ∧ ls ≠ [] ∧
        nonGapItems p.2 = ls.map (fun l => Item.ln l.line_num l.code_line)) := by
  refine ⟨rfl, ?_, ?_⟩
  · intro name ds h
    exact contributer_lines_skip name ds h []
  · intro name ds out h
    exact contributer_lines_mem name ds [] out h (by intro p hp; cases hp)

/-- C9, witness: the amended theorem's omission clause applied to a
concrete record with no `alice` lines. -/
theorem c9_witness : contributer_lines (str "alice") [rec9b, rec9e] = .ok [] :=
  c9_theorem.2.1 (str "alice") [rec9b, rec9e] (by decide)

/-! ### C10: blame lines lacking a delimiter are skipped; parsers total -/

theorem splitCh_ne_nil (c : Char) (l : Str) : splitCh c l ≠ [] := by
  cases l with
  | nil => simp [splitCh]
  | cons a t =>
    by_cases hac : a = c
    · simp [splitCh, hac]
    · simp only [splitCh, if_neg hac]
      cases splitCh c t <;> simp

theorem splitCh_two (c : Char) (l : Str) (h : c ∈ l) :
    ∃ x y rest, splitCh c l = x :: y :: rest := by
  induction l with
  | nil => cases h
  | cons a t ih =>
    by_cases hac : a = c
    · cases hs : splitCh c t with
      | nil => exact absurd hs (splitCh_ne_nil c t)
      | cons s ss => exact ⟨[], s, ss, by simp [splitCh, hac, hs]⟩
    · have hct : c ∈ t := by
        cases h with
        | head => exact absurd rfl hac
        | tail _ h => exact h
      obtain ⟨x, y, rest, hxy⟩ := ih hct
      refine ⟨a :: x, y, rest, ?_⟩
      simp only [splitCh, if_neg hac, hxy]

theorem splitOnce_isSome (c : Char) (l : Str) (h : c ∈ l) :
    (splitOnce c l).isSome = true := by
  induction l with
  | nil => cases h
  | cons a t ih =>
    by_cases hac : a = c
    · simp [splitOnce, hac]
    · have hct : c ∈ t := by
        cases h with
        | head => exact absurd rfl hac
        | tail _ h => exact h
      have hrec := ih hct
      cases ho : splitOnce c t with
      | none => rw [ho] at hrec; exact absurd hrec (by simp)
      | some p => simp [splitOnce, hac, ho]

theorem get_blame_code_line_isSome (line : Str) (h : ')' ∈ line) :
    (get_blame_code_line line).isSome = true := by
  have hs := splitOnce_isSome ')' line h
  cases ho : splitOnce ')' line with
  | none => rw [ho] at hs; exact absurd hs (by simp)
  | some p => simp [get_blame_code_line, ho]

theorem get_blame_reviewer_isSome (line : Str) (h : '(' ∈ line) :
    (get_blame_reviewer line).isSome = true := by
  unfold get_blame_reviewer
  obtain ⟨x, y, rest, hxy⟩ := splitCh_two '(' line h
  rw [hxy]
  rfl

/-- C10: a blame output line lacking `(` or lacking `)` (including lines
with exactly one of the two) is skipped, leaving the accumulated
attributions unchanged; and whenever both delimiters are present the
two-part split at the first `)` and the indexing after the first `(` are
well-defined, so the per-line step never fails on any input. -/
theorem c10_theorem (revs : List (Str × List CodeLine)) (line : Str) :
    (('(' ∉ line ∨ ')' ∉ line) → processBlameLine revs line = .ok revs) ∧
    (('(' ∈ line ∧ ')' ∈ line) →
      (get_blame_code_line line).isSome = true ∧
      (get_blame_reviewer line).isSome = true) ∧
    (∃ revs2, processBlameLine revs line = .ok revs2) := by
  refine ⟨?_, ?_, ?_⟩
  · intro h
    have hb : (line.contains '(' && line.contains ')') = false := by
      rcases h with h | h
      · cases hc : line.contains '(' with
        | false => rfl
        | true => exact absurd (List.mem_of_elem_eq_true hc) h
      · cases hc : line.contains ')' with
        | false => simp
        | true => exact absurd (List.mem_of_elem_eq_true hc) h
    unfold processBlameLine
    rw [hb]
    rfl
  · intro h
    exact ⟨get_blame_code_line_isSome line h.2,
      get_blame_reviewer_isSome line h.1⟩
  · by_cases h : '(' ∈ line ∧ ')' ∈ line
    · have hb : (line.contains '(' && line.contains ')') = true := by
        have e1 : line.contains '(' = true := List.elem_eq_true_of_mem h.1
        have e2 : line.contains ')' = true := List.elem_eq_true_of_mem h.2
        rw [e1, e2]
        rfl
      have h1 := get_blame_code_line_isSome line h.2
      have h2 := get_blame_reviewer_isSome line h.1
      unfold processBlameLine
      rw [hb]
      cases hc1 : get_blame_code_line line with
      | none => rw [hc1] at h1; exact absurd h1 (by simp)
      | some cl =>
        cases hc2 : get_blame_reviewer line with
        | none => rw [hc2] at h2; exact absurd h2 (by simp)
        | some rv =>
          refine ⟨appendRev revs rv cl, ?_⟩
          simp only [hc1, hc2]
          rfl
    · have hb : (line.contains '(' && line.contains ')') = false := by
        by_cases h1 : '(' ∈ line
        · have h2 : ')' ∉ line := fun h2 => h ⟨h1, h2⟩
          cases hc : line.contains ')' with
          | false => simp
          | true => exact absurd (List.mem_of_elem_eq_true hc) h2
        · cases hc : line.contains '(' with
          | false => rfl
          | true => exact absurd (List.mem_of_elem_eq_true hc) h1
      refine ⟨revs, ?_⟩
      unfold processBlameLine
      rw [hb]
      rfl

/-- C10, witness: a continuation line with only a closing parenthesis is
skipped, and a well-formed line parses. -/
theorem c10_witness :
    processBlameLine [] (str "no paren here) only close") = .ok [] :=
  (c10_theorem [] (str "no paren here) only close")).1
    (Or.inl (by decide))

/-! ### String lemmas for C6 -/

theorem splitCh_not_mem (c : Char) (l : Str) (h : c ∉ l) :
    splitCh c l = [l] := by
  induction l with
  | nil => rfl
  | cons a t ih =>
    have hac : ¬a = c := fun he => h (he ▸ List.mem_cons_self a t)
    have hct : c ∉ t := fun hm => h (List.mem_cons_of_mem a hm)
    simp only [splitCh, if_neg hac, ih hct]

theorem splitCh_append_sep (c : Char) (l r : Str) (h : c ∉ l) :
    splitCh c (l ++ c :: r) = l :: splitCh c r := by
  induction l with
  | nil => simp [splitCh]
  | cons x l' ih =>
    have hxc : ¬x = c := fun he => h (he ▸ List.mem_cons_self x l')
    have hcl : c ∉ l' := fun hm => h (List.mem_cons_of_mem x hm)
    simp only [List.cons_append, splitCh, List.append_eq, if_neg hxc, ih hcl]

theorem headD_splitCh_append (c : Char) (a b : Str) (h : c ∉ a) :
    (splitCh c (a ++ b)).headD [] = a ++ (splitCh c b).headD [] := by
  induction a with
  | nil => simp
  | cons x a' ih =>
    have hxc : ¬x = c := fun he => h (he ▸ List.mem_cons_self x a')
    have hca : c ∉ a' := fun hm => h (List.mem_cons_of_mem x hm)
    cases hs : splitCh c (a' ++ b) with
    | nil => exact absurd hs (splitCh_ne_nil c (a' ++ b))
    | cons s ss =>
      have := ih hca
      rw [hs] at this
      simp only [List.headD_cons] at this
      simp only [List.cons_append, splitCh, List.append_eq, if_neg hxc, hs,
        List.headD_cons]
      rw [this]

theorem getLast?_splitCh_append (c : Char) (a r : Str) (h : c ∉ r) :
    (splitCh c (a ++ c :: r)).getLast? = some r := by
  induction a with
  | nil =>
    simp only [List.nil_append, splitCh, if_pos rfl]
    rw [splitCh_not_mem c r h]
    rfl
  | cons x a' ih =>
    by_cases hxc : x = c
    · subst hxc
      simp only [List.cons_append, splitCh, if_pos rfl]
      cases hs : splitCh x (a' ++ x :: r) with
      | nil => exact absurd hs (splitCh_ne_nil x (a' ++ x :: r))
      | cons s ss =>
        rw [hs] at ih
        simpa using ih
    · have hmem : c ∈ a' ++ c :: r :=
        List.mem_append_right a' (List.mem_cons_self c r)
      obtain ⟨p, q, rest, hpq⟩ := splitCh_two c (a' ++ c :: r) hmem
      rw [hpq] at ih
      simp only [List.cons_append, splitCh, List.append_eq, if_neg hxc, hpq]
      simpa using ih

theorem splitCh_joinWith (c : Char) (ts : List Str) (hne : ts ≠ [])
    (h : ∀ t ∈ ts, c ∉ t) : splitCh c (joinWith c ts) = ts := by
  induction ts with
  | nil => exact absurd rfl hne
  | cons t rest ih =>
    cases rest with
    | nil =>
      simp only [joinWith]
      exact splitCh_not_mem c t (h t (by simp))
    | cons u us =>
      simp only [joinWith]
      rw [splitCh_append_sep c t _ (h t (by simp))]
      rw [ih (by simp) (fun x hx => h x (List.mem_cons_of_mem t hx))]

theorem takeWhile_append_stop (p : Str → Bool) (xs : List Str) (y : Str)
    (ys : List Str) (hxs : ∀ x ∈ xs, p x = true) (hy : p y = false) :
    (xs ++ y :: ys).takeWhile p = xs := by
  induction xs with
  | nil => simp [List.takeWhile_cons, hy]
  | cons x xs' ih =>
    have hx : p x = true := hxs x (by simp)
    simp only [List.cons_append, List.takeWhile_cons, hx]
    rw [ih (fun x' hx' => hxs x' (List.mem_cons_of_mem x hx'))]
    simp

theorem splitOnce_append (c : Char) (l r : Str) (h : c ∉ l) :
    splitOnce c (l ++ c :: r) = some (l, r) := by
  induction l with
  | nil => simp [splitOnce]
  | cons x l' ih =>
    have hxc : ¬x = c := fun he => h (he ▸ List.mem_cons_self x l')
    have hcl : c ∉ l' := fun hm => h (List.mem_cons_of_mem x hm)
    simp only [List.cons_append, splitOnce, List.append_eq, if_neg hxc, ih hcl]
    rfl

theorem mem_joinWith (c : Char) (ts : List Str) (ch : Char)
    (h : ch ∈ joinWith c ts) : ch = c ∨ ∃ t ∈ ts, ch ∈ t := by
  induction ts with
  | nil => cases h
  | cons t rest ih =>
    cases rest with
    | nil =>
      simp only [joinWith] at h
      exact Or.inr ⟨t, by simp, h⟩
    | cons u us =>
      simp only [joinWith, List.mem_append, List.mem_cons] at h
      rcases h with h | h | h
      · exact Or.inr ⟨t, by simp, h⟩
      · exact Or.inl h
      · rcases ih h with h | ⟨t', ht', hch⟩
        · exact Or.inl h
        · exact Or.inr ⟨t', List.mem_cons_of_mem t ht', hch⟩

theorem joinWith_append_last (c : Char) (ts : List Str) (t : Str)
    (h : ts ≠ []) : joinWith c (ts ++ [t]) = joinWith c ts ++ c :: t := by
  induction ts with
  | nil => exact absurd rfl h
  | cons u rest ih =>
    cases rest with
    | nil => simp [joinWith]
    | cons v vs =>
      have ihv := ih (by simp)
      simp only [List.cons_append] at ihv
      simp only [List.cons_append, joinWith, List.append_eq]
      rw [ihv]
      simp

theorem joinWith_ne_nil (c : Char) (u : Str) (us : List Str) (h : u ≠ []) :
    joinWith c (u :: us) ≠ [] := by
  cases us with
  | nil => simpa [joinWith] using h
  | cons v vs => simp [joinWith, h]

theorem joinWith_head (c : Char) (t : Str) (rest : List Str) :
    ∃ s, joinWith c (t :: rest) = t ++ s := by
  cases rest with
  | nil => exact ⟨[], by simp [joinWith]⟩
  | cons u us => exact ⟨c :: joinWith c (u :: us), rfl⟩

theorem joinWith_getLast? (c : Char) (ts : List Str) (hne : ts ≠ [])
    (hall : ∀ t ∈ ts, t ≠ []) :
    ∃ t ∈ ts, (joinWith c ts).getLast? = t.getLast? := by
  induction ts with
  | nil => exact absurd rfl hne
  | cons t rest ih =>
    cases rest with
    | nil => exact ⟨t, by simp, by simp [joinWith]⟩
    | cons u us =>
      obtain ⟨t', ht', heq⟩ :=
        ih (by simp) (fun x hx => hall x (List.mem_cons_of_mem t hx))
      refine ⟨t', List.mem_cons_of_mem t ht', ?_⟩
      have hjne : joinWith c (u :: us) ≠ [] :=
        joinWith_ne_nil c u us (hall u (by simp))
      have e1 : (joinWith c (t :: u :: us)) = t ++ (c :: joinWith c (u :: us)) := rfl
      rw [e1, List.getLast?_append_of_ne_nil _ (by simp)]
      rw [show (c :: joinWith c (u :: us)) = [c] ++ joinWith c (u :: us) from rfl]
      rw [List.getLast?_append_of_ne_nil _ hjne]
      exact heq

theorem pyStrip_of_ends (l : Str)
    (h1 : ∀ a, l.head? = some a → pyIsSpace a = false)
    (h2 : ∀ b, l.getLast? = some b → pyIsSpace b = false) :
    pyStrip l = l := by
  cases l with
  | nil => rfl
  | cons x xs =>
    have hx : pyIsSpace x = false := h1 x rfl
    have hfront : (x :: xs).dropWhile pyIsSpace = x :: xs := by
      rw [List.dropWhile_cons_of_neg]
      simp [hx]
    cases hr : (x :: xs).reverse with
    | nil => exact absurd hr (by simp)
    | cons y ys =>
      have hy : (x :: xs).getLast? = some y := by
        rw [← List.head?_reverse, hr]
        rfl
      have hyf : pyIsSpace y = false := h2 y hy
      unfold pyStrip
      rw [hfront, hr, List.dropWhile_cons_of_neg (by simp [hyf]), ← hr,
        List.reverse_reverse]

theorem pyStrip_of_no_space (t : Str)
    (h : ∀ ch ∈ t, pyIsSpace ch = false) : pyStrip t = t := by
  refine pyStrip_of_ends t ?_ ?_
  · intro a ha
    cases t with
    | nil => cases ha
    | cons x xs =>
      simp only [List.head?_cons, Option.some.injEq] at ha
      subst ha
      exact h x (by simp)
  · intro b hb
    have : b ∈ t := List.mem_of_mem_getLast? hb
    exact h b this

theorem pyStrip_joinWith (name : List Str) (hname : name ≠ [])
    (htok : ∀ t ∈ name, t ≠ [] ∧ ∀ ch ∈ t, pyIsSpace ch = false) :
    pyStrip (joinWith ' ' name) = joinWith ' ' name := by
  cases name with
  | nil => exact absurd rfl hname
  | cons t rest =>
    refine pyStrip_of_ends _ ?_ ?_
    · intro a ha
      obtain ⟨s, hs⟩ := joinWith_head ' ' t rest
      rw [hs] at ha
      cases ht : t with
      | nil => exact absurd ht ((htok t (by simp)).1)
      | cons x xs =>
        rw [ht, List.cons_append, List.head?_cons, Option.some.injEq] at ha
        subst ha
        exact (htok t (by simp)).2 x (by rw [ht]; simp)
    · intro b hb
      obtain ⟨t', ht', heq⟩ := joinWith_getLast? ' ' (t :: rest) (by simp)
        (fun x hx => (htok x hx).1)
      rw [heq] at hb
      have : b ∈ t' := List.mem_of_mem_getLast? hb
      exact (htok t' ht').2 b this

/-! ### C6: blame line parsing -/

/-- C6: for every blame line of the form
`<rev> (<author tokens> <date> <lineno>) <code>` — revision text free of
parentheses, nonempty author tokens that are not date-shaped and contain
no whitespace or parentheses, a date-shaped token, a nonempty line-number
token, arbitrary code text — the extracted author is the token sequence
between `(` and `)` truncated at the date token and rejoined with single
spaces; the line number is the rightmost space-separated token before the
first `)`; and the code text is the text after the first `)` with one
leading character dropped. -/
theorem c6_theorem (rev : Str) (name : List Str) (date num code : Str)
    (hrev : ∀ ch ∈ rev, ch ≠ '(' ∧ ch ≠ ')')
    (hname : name ≠ [])
    (htok : ∀ t ∈ name, t ≠ [] ∧ isDate t = false ∧
      ∀ ch ∈ t, pyIsSpace ch = false ∧ ch ≠ '(' ∧ ch ≠ ')')
    (hdate : isDate date = true)
    (hdchars : ∀ ch ∈ date, pyIsSpace ch = false ∧ ch ≠ '(' ∧ ch ≠ ')')
    (hnum : num ≠ [])
    (hnchars : ∀ ch ∈ num, pyIsSpace ch = false ∧ ch ≠ '(' ∧ ch ≠ ')') :
    get_blame_reviewer
        (rev ++ '(' ::
          (joinWith ' ' (name ++ [date, num]) ++ ')' :: ' ' :: code)) =
      some (joinWith ' ' name) ∧
    get_blame_code_line
        (rev ++ '(' ::
          (joinWith ' ' (name ++ [date, num]) ++ ')' :: ' ' :: code)) =
      some ⟨num, code⟩ := by
  have hchars : ∀ t ∈ name ++ [date, num], ∀ ch ∈ t,
      pyIsSpace ch = false ∧ ch ≠ '(' ∧ ch ≠ ')' := by
    intro t ht ch hch
    rcases List.mem_append.mp ht with h | h
    · exact (htok t h).2.2 ch hch
    · simp only [List.mem_cons, List.mem_singleton, List.not_mem_nil,
        or_false] at h
      rcases h with rfl | rfl
      · exact hdchars ch hch
      · exact hnchars ch hch
  have hspaceFree : ∀ t ∈ name ++ [date, num], ' ' ∉ t := by
    intro t ht hmem
    exact absurd (hchars t ht ' ' hmem).1 (by decide)
  have htsne : name ++ [date, num] ≠ [] := by simp
  have hinnerChars : ∀ ch ∈ joinWith ' ' (name ++ [date, num]),
      ch ≠ '(' ∧ ch ≠ ')' := by
    intro ch hch
    rcases mem_joinWith ' ' _ ch hch with rfl | ⟨t, ht, hcht⟩
    · exact ⟨by decide, by decide⟩
    · exact ⟨(hchars t ht ch hcht).2.1, (hchars t ht ch hcht).2.2⟩
  have hinL : '(' ∉ joinWith ' ' (name ++ [date, num]) :=
    fun h => (hinnerChars '(' h).1 rfl
  have hinR : ')' ∉ joinWith ' ' (name ++ [date, num]) :=
    fun h => (hinnerChars ')' h).2 rfl
  have hrevL : '(' ∉ rev := fun h => (hrev '(' h).1 rfl
  have hrevR : ')' ∉ rev := fun h => (hrev ')' h).2 rfl
  -- code-line part
  have hpre : ')' ∉ rev ++ '(' :: joinWith ' ' (name ++ [date, num]) := by
    intro h
    rcases List.mem_append.mp h with h | h
    · exact hrevR h
    · rcases List.mem_cons.mp h with h | h
      · exact absurd h (by decide)
      · exact hinR h
  have hso : splitOnce ')'
      (rev ++ '(' ::
        (joinWith ' ' (name ++ [date, num]) ++ ')' :: ' ' :: code)) =
      some (rev ++ '(' :: joinWith ' ' (name ++ [date, num]),
            ' ' :: code) := by
    have hassoc : rev ++ '(' ::
        (joinWith ' ' (name ++ [date, num]) ++ ')' :: ' ' :: code) =
        (rev ++ '(' :: joinWith ' ' (name ++ [date, num])) ++
          ')' :: (' ' :: code) := by
      simp
    rw [hassoc]
    exact splitOnce_append ')' _ _ hpre
  have hjoin_split : joinWith ' ' (name ++ [date, num]) =
      joinWith ' ' (name ++ [date]) ++ ' ' :: num := by
    have e : name ++ [date, num] = (name ++ [date]) ++ [num] := by simp
    rw [e, joinWith_append_last ' ' (name ++ [date]) num (by simp)]
  have hnumsp : ' ' ∉ num := hspaceFree num (by simp)
  have hlast : (splitCh ' '
      (rev ++ '(' :: joinWith ' ' (name ++ [date, num]))).getLast? =
      some num := by
    have e : rev ++ '(' :: joinWith ' ' (name ++ [date, num]) =
        (rev ++ '(' :: joinWith ' ' (name ++ [date])) ++ ' ' :: num := by
      rw [hjoin_split]
      simp
    rw [e]
    exact getLast?_splitCh_append ' ' _ num hnumsp
  have hcode : get_blame_code_line
      (rev ++ '(' ::
        (joinWith ' ' (name ++ [date, num]) ++ ')' :: ' ' :: code)) =
      some ⟨num, code⟩ := by
    unfold get_blame_code_line
    rw [hso]
    have hlastD : (splitCh ' '
        (rev ++ '(' :: joinWith ' ' (name ++ [date, num]))).getLastD [] =
        num := by
      rw [List.getLastD_eq_getLast?, hlast]
      rfl
    simp only [Option.map_some']
    rw [hlastD]
    rfl
  refine ⟨?_, hcode⟩
  -- reviewer part
  obtain ⟨s, ss, hL⟩ : ∃ s ss,
      splitCh '(' (joinWith ' ' (name ++ [date, num]) ++ ')' :: ' ' :: code) =
        s :: ss := by
    cases h : splitCh '('
        (joinWith ' ' (name ++ [date, num]) ++ ')' :: ' ' :: code) with
    | nil => exact absurd h (splitCh_ne_nil _ _)
    | cons a b => exact ⟨a, b, rfl⟩
  have ha2 : '(' ∉ (joinWith ' ' (name ++ [date, num]) ++ [')', ' ']) := by
    intro h
    rcases List.mem_append.mp h with h | h
    · exact hinL h
    · simp at h
  have hs_val : s = joinWith ' ' (name ++ [date, num]) ++
      ')' :: ' ' :: (splitCh '(' code).headD [] := by
    have hassoc2 : joinWith ' ' (name ++ [date, num]) ++ ')' :: ' ' :: code =
        (joinWith ' ' (name ++ [date, num]) ++ [')', ' ']) ++ code := by
      simp
    have h1 := headD_splitCh_append '('
      (joinWith ' ' (name ++ [date, num]) ++ [')', ' ']) code ha2
    rw [← hassoc2, hL] at h1
    simpa using h1
  have hget : (splitCh '('
      (rev ++ '(' ::
        (joinWith ' ' (name ++ [date, num]) ++ ')' :: ' ' :: code))).get? 1 =
      some s := by
    rw [splitCh_append_sep '(' rev _ hrevL, hL]
    rfl
  have hseg : (splitCh ')' s).headD [] =
      joinWith ' ' (name ++ [date, num]) := by
    rw [hs_val, splitCh_append_sep ')' _ _ hinR]
    rfl
  have hparts : splitCh ' ' (joinWith ' ' (name ++ [date, num])) =
      name ++ [date, num] :=
    splitCh_joinWith ' ' _ htsne hspaceFree
  have htake : (name ++ [date, num]).takeWhile (fun p => !(isDate p)) =
      name := by
    refine takeWhile_append_stop _ name date [num] ?_ ?_
    · intro t ht
      rw [(htok t ht).2.1]
      rfl
    · rw [hdate]
      rfl
  have hmap : name.map pyStrip = name := by
    have e : name.map pyStrip = name.map id :=
      List.map_congr_left (fun t ht => pyStrip_of_no_space t
        (fun ch hch => ((htok t ht).2.2 ch hch).1))
    rw [e, List.map_id]
  have hstrip : pyStrip (joinWith ' ' name) = joinWith ' ' name :=
    pyStrip_joinWith name hname
      (fun t ht => ⟨(htok t ht).1,
        fun ch hch => ((htok t ht).2.2 ch hch).1⟩)
  unfold get_blame_reviewer
  rw [hget]
  show some (pyStrip (joinWith ' '
      ((((splitCh ' ' ((splitCh ')' s).headD [])).takeWhile
        (fun p => !(isDate p))).map pyStrip)))) = some (joinWith ' ' name)
  rw [hseg, hparts, htake, hmap, hstrip]

/-- C6, witness: the general theorem at the blame line
`3de56af (Jane Doe 2023-5-1 42) some code`: author `Jane Doe`, line
number token `42`, code text `some code`. -/
theorem c6_witness :
    get_blame_reviewer (str "3de56af (Jane Doe 2023-5-1 42) some code") =
      some (str "Jane Doe") ∧
    get_blame_code_line (str "3de56af (Jane Doe 2023-5-1 42) some code") =
      some ⟨str "42", str "some code"⟩ := by
  have h := c6_theorem (str "3de56af ") [str "Jane", str "Doe"]
    (str "2023-5-1") (str "42") (str "some code")
    (by decide) (by decide) (by decide) (by decide) (by decide) (by decide)
    (by decide)
  have e : str "3de56af (Jane Doe 2023-5-1 42) some code" =
      str "3de56af " ++ '(' ::
        (joinWith ' ' ([str "Jane", str "Doe"] ++ [str "2023-5-1", str "42"]) ++
          ')' :: ' ' :: str "some code") := by decide
  rw [e]
  exact ⟨by rw [h.1]; decide, h.2⟩

end GitReviewers
